import Mathlib

/-!
Verification of the csBot pool/balancing core (src/bot.py).

The Python source is shallowly embedded below.  Skills (average ADR values)
are modelled as integers; player identities are a parameter type with
decidable equality (strings in the places the source uses display names).
Database tables become lists carried in an explicit state; the unique
constraints declared in init_database are modelled explicitly because the
behaviour of the INSERT ... ON CONFLICT statements in the source depends
on them.
-/

namespace CsBot

/-- Embedding of itertools.combinations as used in balance_teams: all
size-k subsequences of the input, in lexicographic index order. -/
def combinations {α : Type} : Nat → List α → List (List α)
  | 0, _ => [[]]
  | _ + 1, [] => []
  | k + 1, x :: xs => (combinations k xs).map (fun c => x :: c) ++ combinations (k + 1) xs

/-- The value computed by balance_teams for one candidate split:
best_team1 = (team1, sum1), best_team2 = (team2, sum2), best_diff. -/
structure BTResult (α : Type) where
  team1 : List (α × Int)
  sum1 : Int
  team2 : List (α × Int)
  sum2 : Int
  diff : Int
  deriving DecidableEq

/-- The python expression p not in team1, as a Bool predicate. -/
def notMemB {α : Type} [DecidableEq α] (t : List α) (p : α) : Bool :=
  decide (p ∉ t)

/-- The loop body data of balance_teams at one candidate team1:
team2 = [p for p in players_pool if p not in team1] (value membership),
sum1, sum2 the skill sums, diff their absolute difference. -/
def mkRes {α : Type} [DecidableEq α] (pool : List (α × Int)) (team1 : List (α × Int)) :
    BTResult α :=
  let team2 := pool.filter (notMemB team1)
  let sum1 := (team1.map Prod.snd).sum
  let sum2 := (team2.map Prod.snd).sum
  ⟨team1, sum1, team2, sum2, |sum1 - sum2|⟩

/-- The absolute difference scored for a candidate team1. -/
def candDiff {α : Type} [DecidableEq α] (pool team1 : List (α × Int)) : Int :=
  (mkRes pool team1).diff

/-- One iteration of the balance_teams loop: replace the best candidate
only on strict improvement (diff < best_diff); the initial best_diff is
infinity, modelled by the none accumulator. -/
def balance_step {α : Type} [DecidableEq α] (pool : List (α × Int))
    (acc : Option (BTResult α)) (team1 : List (α × Int)) : Option (BTResult α) :=
  match acc with
  | none => some (mkRes pool team1)
  | some b => if candDiff pool team1 < b.diff then some (mkRes pool team1) else some b

/-- Embedding of balance_teams: fold the loop body over all 5-element
combinations of the pool.  A none result models the (None, None, inf)
return of the source when no combination exists. -/
def balance_teams {α : Type} [DecidableEq α] (pool : List (α × Int)) : Option (BTResult α) :=
  (combinations 5 pool).foldl (balance_step pool) none

/-- Modelled from the spec (4.3): the first candidate in enumeration order
attaining the minimal absolute difference; ties keep the earlier candidate.
Used to state the refinement claim about balance_teams. -/
def specFirstMinimal {α : Type} [DecidableEq α] (pool : List (α × Int)) :
    List (List (α × Int)) → Option (List (α × Int))
  | [] => none
  | c :: cs =>
    match specFirstMinimal pool cs with
    | none => some c
    | some d => if candDiff pool c ≤ candDiff pool d then some c else some d

/-- Tail of the balance_teams loop once a best candidate exists. -/
def runBest {α : Type} [DecidableEq α] (pool : List (α × Int)) (b : BTResult α) :
    List (List (α × Int)) → BTResult α
  | [] => b
  | c :: cs => runBest pool (if candDiff pool c < b.diff then mkRes pool c else b) cs

/-! Embedding of balance_teams_with_history (success path; the storage
connection is assumed reachable, so the except fallback is not taken).
The historical query result for a player name is a parameter
hist : String to Option Int; a none models an absent or NULL average. -/

/-- The skill the source assigns to one name:
avg_adr = result[0] if result and result[0] else 75.0.
The fetched row is a one-element tuple, always truthy; its single field is
tested for truthiness, so both a NULL average and an average of exactly 0
fall back to the default 75. -/
def lookupSkill (hist : String → Option Int) (name : String) : Int :=
  match hist name with
  | none => 75
  | some v => if v = 0 then 75 else v

/-- One python dict assignment d[k] = v on an insertion-ordered dict
modelled as an association list: an existing key keeps its position and
gets the new value, a new key is appended. -/
def dictInsert (d : List (String × Int)) (k : String) (v : Int) : List (String × Int) :=
  if k ∈ d.map Prod.fst then d.map (fun kv => if kv.1 = k then (k, v) else kv)
  else d ++ [(k, v)]

/-- The player_stats dict built by the loop over players_pool, converted to
a list by dict.items() order. -/
def build_player_stats (hist : String → Option Int) (names : List String) :
    List (String × Int) :=
  names.foldl (fun d n => dictInsert d n (lookupSkill hist n)) []

/-- Embedding of balance_teams_with_history: builds the name-keyed stats
dict, then runs the same enumeration loop as balance_teams over its items;
returns the balancing result and the stats dict. -/
def balance_teams_with_history (hist : String → Option Int) (names : List String) :
    Option (BTResult String) × List (String × Int) :=
  (balance_teams (build_player_stats hist names), build_player_stats hist names)

/-! Embedding of the join/leave pool state machine (join_game, leave_game
and the storage helpers they call), for one open session.  The database
state is the match_players membership list (in joined_at order), the rows
of the cooldowns table, and a counter of auto_balance_teams invocations.
Times are seconds as naturals. -/

/-- Outcome of the +kc handler join_game. -/
inductive JoinResult where
  | onCooldown (remaining : Int)
  | alreadyJoined
  | poolFull
  | joined (newCount : Nat)
  deriving DecidableEq

/-- Outcome of the -kc handler leave_game. -/
inductive LeaveResult where
  | notInPool
  | left (newCount : Nat)
  deriving DecidableEq

/-- The mutable database state the handlers touch for one open session. -/
structure BotState where
  members : List Nat
  cooldowns : List (Nat × Nat)
  balanceCalls : Nat
  deriving DecidableEq

/-- Unique constraints of the cooldowns table in init_database: only the
SERIAL PRIMARY KEY on id; there is no unique constraint on player_id. -/
def cooldowns_unique_targets : List (List String) := [["id"]]

/-- Unique constraints of the match_players table in init_database: the
primary key and UNIQUE(match_id, player_id). -/
def match_players_unique_targets : List (List String) := [["id"], ["match_id", "player_id"]]

/-- PostgreSQL accepts an INSERT ... ON CONFLICT (cols) statement only when
cols matches a unique or exclusion constraint of the table; otherwise the
statement itself raises an error. -/
def onConflictTargetOk (uniques : List (List String)) (target : List String) : Bool :=
  decide (target ∈ uniques)

/-- Embedding of set_cooldown: runs INSERT INTO cooldowns ... ON CONFLICT
(player_id) DO UPDATE.  When the conflict target is not backed by a unique
constraint the statement raises, the except branch returns False and no row
is written; otherwise it would upsert the row. -/
def set_cooldown (now pid durationSeconds : Nat) (st : BotState) : Bool × BotState :=
  if onConflictTargetOk cooldowns_unique_targets ["player_id"] then
    (true, { st with
      cooldowns := (pid, now + durationSeconds) :: st.cooldowns.filter (fun r => r.1 ≠ pid) })
  else
    (false, st)

/-- Embedding of check_cooldown: the first cooldowns row of the player with
cooldown_end strictly in the future, if any. -/
def check_cooldown (now pid : Nat) (st : BotState) : Option Nat :=
  (st.cooldowns.find? (fun r => decide (r.1 = pid ∧ now < r.2))).map Prod.snd

/-- Embedding of get_match_players restricted to player ids. -/
def get_match_players (st : BotState) : List Nat :=
  st.members

/-- Embedding of get_match_player_count: COUNT(*) over the membership. -/
def get_match_player_count (st : BotState) : Nat :=
  st.members.length

/-- Embedding of add_player_to_match: INSERT ... ON CONFLICT (match_id,
player_id) DO NOTHING; the conflict target is backed by UNIQUE(match_id,
player_id), so a duplicate insert is silently skipped. -/
def add_player_to_match (pid : Nat) (members : List Nat) : List Nat :=
  if pid ∈ members then members else members ++ [pid]

/-- Embedding of remove_player_from_match: DELETE of the membership rows of
the player; reports whether any row was removed (cursor.rowcount > 0). -/
def remove_player_from_match (pid : Nat) (members : List Nat) : Bool × List Nat :=
  (decide (pid ∈ members), members.filter (fun q => q ≠ pid))

/-- Embedding of the join_game handler body for one open session:
cooldown check, already-in-pool check, capacity check, insert, and the
auto_balance_teams call when the incremented count is exactly 10. -/
def join_game (now pid : Nat) (st : BotState) : JoinResult × BotState :=
  match check_cooldown now pid st with
  | some cend => (.onCooldown ((cend : Int) - (now : Int)), st)
  | none =>
    if pid ∈ get_match_players st then (.alreadyJoined, st)
    else if 10 ≤ get_match_player_count st then (.poolFull, st)
    else if get_match_player_count st + 1 = 10 then
      (.joined (get_match_player_count st + 1),
        { st with members := add_player_to_match pid st.members,
                  balanceCalls := st.balanceCalls + 1 })
    else
      (.joined (get_match_player_count st + 1),
        { st with members := add_player_to_match pid st.members })

/-- Embedding of the leave_game handler body: delete the membership; on
success run set_cooldown(pid, 60, leave_cooldown) ignoring its outcome and
report the new count, otherwise report that the player is not in the pool. -/
def leave_game (now pid : Nat) (st : BotState) : LeaveResult × BotState :=
  if (remove_player_from_match pid st.members).1 then
    (.left (get_match_player_count
        (set_cooldown now pid 60
          { st with members := (remove_player_from_match pid st.members).2 }).2),
      (set_cooldown now pid 60
        { st with members := (remove_player_from_match pid st.members).2 }).2)
  else
    (.notInPool, st)

/-- A user-visible operation against the open session. -/
inductive Op where
  | join (now pid : Nat)
  | leave (now pid : Nat)
  deriving DecidableEq

/-- Effect of one operation on the state. -/
def step (st : BotState) : Op → BotState
  | .join now pid => (join_game now pid st).2
  | .leave now pid => (leave_game now pid st).2

/-- The state of a freshly created match: no members, no cooldown rows. -/
def initState : BotState :=
  { members := [], cooldowns := [], balanceCalls := 0 }

/-- The state after a sequence of completed operations on one session. -/
def run (ops : List Op) : BotState :=
  ops.foldl step initState

/-- Invariant of reachable states: distinct members, capacity respected,
and (because every set_cooldown statement fails) an empty cooldowns table. -/
def Inv (st : BotState) : Prop :=
  st.members.Nodup ∧ st.members.length ≤ 10 ∧ st.cooldowns = []

/-! Concrete inputs used by witnesses and counterexamples. -/

/-- Two entries: satisfies the spec precondition (even, at least 2). -/
def poolTwo : List (String × Int) := [("A", 1), ("B", 2)]

/-- Five entries: violates the spec precondition (odd length). -/
def poolFive : List (String × Int) :=
  [("A", 1), ("B", 2), ("C", 3), ("D", 4), ("E", 5)]

/-- The ten-entry pool of the balancer correctness property. -/
def poolTen : List (String × Int) :=
  [("A", 100), ("B", 90), ("C", 80), ("D", 70), ("E", 60),
   ("F", 50), ("G", 40), ("H", 30), ("I", 20), ("J", 10)]

/-- Ten entries containing a duplicated pair at positions 0 and 5. -/
def dupPool : List (String × Int) :=
  [("A", 0), ("B", 0), ("C", 0), ("D", 0), ("E", 0),
   ("A", 0), ("F", 0), ("G", 0), ("H", 0), ("I", 0)]

/-- A history with no stats rows for anyone. -/
def histNone : String → Option Int := fun _ => none

/-- A history whose average ADR is exactly 0 for everyone. -/
def histZero : String → Option Int := fun _ => some 0

/-- A history whose average ADR is 88 for everyone. -/
def histEightyEight : String → Option Int := fun _ => some 88

/-- Ten pool member display names with a duplicated name. -/
def names10 : List String := ["A", "B", "C", "D", "E", "F", "G", "H", "I", "A"]

/-- The balancing result on names10 with histNone: nine entries of skill
75, first combination kept. -/
def r0 : BTResult String :=
  ⟨[("A", 75), ("B", 75), ("C", 75), ("D", 75), ("E", 75)], 375,
   [("F", 75), ("G", 75), ("H", 75), ("I", 75)], 300, 75⟩

/-- Nine distinct players joining an empty session. -/
def ops9 : List Op :=
  [.join 0 1, .join 0 2, .join 0 3, .join 0 4, .join 0 5,
   .join 0 6, .join 0 7, .join 0 8, .join 0 9]

/-- Ten distinct players joining an empty session. -/
def ops10 : List Op :=
  [.join 0 1, .join 0 2, .join 0 3, .join 0 4, .join 0 5,
   .join 0 6, .join 0 7, .join 0 8, .join 0 9, .join 0 10]

/-- Fill to ten, one player leaves, an eleventh player refills to ten. -/
def opsRefill : List Op := ops10 ++ [.leave 50 10, .join 100 11]

/-- One player joins and later leaves at time 1000. -/
def opsLeaveScenario : List Op := [.join 0 1, .leave 1000 1]

/-- Two distinct players joining an empty session. -/
def ops2 : List Op := [.join 0 1, .join 0 2]

@[simp]
theorem mkRes_diff {α : Type} [DecidableEq α] (pool c : List (α × Int)) :
    (mkRes pool c).diff = candDiff pool c := rfl

theorem foldl_balance_step_some {α : Type} [DecidableEq α] (pool : List (α × Int))
    (cs : List (List (α × Int))) (b : BTResult α) :
    cs.foldl (balance_step pool) (some b) = some (runBest pool b cs) := by
  induction cs generalizing b with
  | nil => rfl
  | cons c cs ih =>
    simp only [List.foldl_cons, balance_step, runBest]
    by_cases h : candDiff pool c < b.diff
    · rw [if_pos h, if_pos h]; exact ih _
    · rw [if_neg h, if_neg h]; exact ih _

theorem runBest_eq_spec {α : Type} [DecidableEq α] (pool : List (α × Int))
    (cs : List (List (α × Int))) (b : BTResult α) :
    runBest pool b cs =
      (match specFirstMinimal pool cs with
       | none => b
       | some c => if candDiff pool c < b.diff then mkRes pool c else b) := by
  induction cs generalizing b with
  | nil => rfl
  | cons c cs ih =>
    rw [runBest, ih]
    cases hcs : specFirstMinimal pool cs with
    | none => simp only [specFirstMinimal, hcs]
    | some d =>
      simp only [specFirstMinimal, hcs]
      by_cases hcb : candDiff pool c < b.diff
      · simp only [if_pos hcb, mkRes_diff]
        rcases le_or_lt (candDiff pool c) (candDiff pool d) with hle | hlt
        · rw [if_neg (by omega : ¬ candDiff pool d < candDiff pool c), if_pos hle]
          exact (if_pos hcb).symm
        · rw [if_pos hlt, if_neg (not_le.mpr hlt)]
          exact (if_pos (by omega)).symm
      · simp only [if_neg hcb]
        rcases le_or_lt (candDiff pool c) (candDiff pool d) with hle | hlt
        · rw [if_neg (by omega : ¬ candDiff pool d < b.diff), if_pos hle]
          exact (if_neg hcb).symm
        · rw [if_neg (not_le.mpr hlt)]

/-- balance_teams returns the first candidate in enumeration order whose
difference is minimal, packaged by mkRes. -/
theorem balance_teams_eq_spec {α : Type} [DecidableEq α] (pool : List (α × Int)) :
    balance_teams pool = (specFirstMinimal pool (combinations 5 pool)).map (mkRes pool) := by
  unfold balance_teams
  cases hc : combinations 5 pool with
  | nil => rfl
  | cons c cs =>
    have hstep : balance_step pool none c = some (mkRes pool c) := rfl
    rw [List.foldl_cons, hstep, foldl_balance_step_some, runBest_eq_spec]
    simp only [specFirstMinimal]
    cases hcs : specFirstMinimal pool cs with
    | none => rfl
    | some d =>
      simp only [Option.map]
      rcases le_or_lt (candDiff pool c) (candDiff pool d) with hle | hlt
      · rw [if_pos hle, if_neg (by simp only [mkRes_diff]; omega)]
      · rw [if_neg (not_le.mpr hlt), if_pos (by simp only [mkRes_diff]; omega)]

theorem specFirstMinimal_mem {α : Type} [DecidableEq α] (pool : List (α × Int))
    (cs : List (List (α × Int))) :
    ∀ c, specFirstMinimal pool cs = some c → c ∈ cs := by
  induction cs with
  | nil => intro c h; simp [specFirstMinimal] at h
  | cons d ds ih =>
    intro c h
    rw [specFirstMinimal] at h
    split at h
    next heq =>
      cases h
      exact List.mem_cons_self _ _
    next e heq =>
      split at h
      · cases h
        exact List.mem_cons_self _ _
      · cases h
        exact List.mem_cons_of_mem _ (ih _ heq)

theorem specFirstMinimal_eq_none {α : Type} [DecidableEq α] (pool : List (α × Int))
    (cs : List (List (α × Int))) : specFirstMinimal pool cs = none ↔ cs = [] := by
  cases cs with
  | nil => simp [specFirstMinimal]
  | cons c cs =>
    constructor
    · intro h
      rw [specFirstMinimal] at h
      split at h
      · cases h
      · split at h <;> cases h
    · intro h
      exact absurd h (List.cons_ne_nil _ _)

theorem mem_combinations_sublist {α : Type} (k : Nat) (l : List α) (c : List α)
    (h : c ∈ combinations k l) : c.Sublist l ∧ c.length = k := by
  induction l generalizing k c with
  | nil =>
    cases k with
    | zero => simp [combinations] at h; simp [h]
    | succ k => simp [combinations] at h
  | cons x xs ih =>
    cases k with
    | zero => simp [combinations] at h; simp [h]
    | succ k =>
      simp only [combinations, List.mem_append, List.mem_map] at h
      rcases h with ⟨d, hd, rfl⟩ | h
      · rcases ih k d hd with ⟨hs, hl⟩
        exact ⟨List.Sublist.cons₂ x hs, by simp [hl]⟩
      · rcases ih (k + 1) c h with ⟨hs, hl⟩
        exact ⟨List.Sublist.cons x hs, hl⟩

theorem combinations_ne_nil_iff {α : Type} (k : Nat) (l : List α) :
    combinations k l ≠ [] ↔ k ≤ l.length := by
  induction l generalizing k with
  | nil =>
    cases k with
    | zero => simp [combinations]
    | succ k => simp [combinations]
  | cons x xs ih =>
    cases k with
    | zero => simp [combinations]
    | succ k =>
      have h1 := ih k
      have h2 := ih (k + 1)
      simp only [combinations, ne_eq, List.append_eq_nil, List.map_eq_nil_iff]
      rw [not_and_or]
      simp only [← ne_eq, h1, h2, List.length_cons]
      omega

theorem sublist_filter_length {α : Type} [DecidableEq α] {t l : List α} :
    t.Sublist l → l.Nodup →
      (l.filter (notMemB t)).length = l.length - t.length := by
  intro h
  induction h with
  | slnil => intro _; rfl
  | @cons t2 l2 a h ih =>
    intro hnd
    rcases List.nodup_cons.mp hnd with ⟨ha, hnd2⟩
    have hat : a ∉ t2 := fun hm => ha (h.subset hm)
    rw [List.filter_cons, if_pos (by simp [notMemB, hat])]
    have hle := h.length_le
    simp only [List.length_cons, ih hnd2]
    omega
  | @cons₂ t2 l2 a h ih =>
    intro hnd
    rcases List.nodup_cons.mp hnd with ⟨ha, hnd2⟩
    rw [List.filter_cons, if_neg (by simp [notMemB])]
    have hfc : ∀ x ∈ l2, notMemB (a :: t2) x = notMemB t2 x := by
      intro x hx
      have hxa : x ≠ a := fun hxa2 => ha (hxa2 ▸ hx)
      simp [notMemB, List.mem_cons, hxa]
    rw [List.filter_congr hfc]
    have hle := h.length_le
    simp only [List.length_cons, ih hnd2]
    omega

theorem sublist_append_filter_perm {α : Type} [DecidableEq α] {t l : List α} :
    t.Sublist l → l.Nodup →
      (t ++ l.filter (notMemB t)).Perm l := by
  intro h
  induction h with
  | slnil => intro _; simp
  | @cons t2 l2 a h ih =>
    intro hnd
    rcases List.nodup_cons.mp hnd with ⟨ha, hnd2⟩
    have hat : a ∉ t2 := fun hm => ha (h.subset hm)
    rw [List.filter_cons, if_pos (by simp [notMemB, hat])]
    exact List.perm_middle.trans (List.Perm.cons a (ih hnd2))
  | @cons₂ t2 l2 a h ih =>
    intro hnd
    rcases List.nodup_cons.mp hnd with ⟨ha, hnd2⟩
    rw [List.filter_cons, if_neg (by simp [notMemB])]
    have hfc : ∀ x ∈ l2, notMemB (a :: t2) x = notMemB t2 x := by
      intro x hx
      have hxa : x ≠ a := fun hxa2 => ha (hxa2 ▸ hx)
      simp [notMemB, List.mem_cons, hxa]
    rw [List.filter_congr hfc]
    simpa using List.Perm.cons a (ih hnd2)

/-- C4: balance_teams is a pure function that enumerates the size-5 subsets
of its input in index-combinatorial order and replaces the best candidate
only on strict improvement, hence it returns exactly the first
minimal-absolute-difference candidate in enumeration order (ties keep the
earlier subset); identical input always yields identical output. -/
theorem balance_teams_first_minimal {α : Type} [DecidableEq α] (pool : List (α × Int)) :
    balance_teams pool = (specFirstMinimal pool (combinations 5 pool)).map (mkRes pool) :=
  balance_teams_eq_spec pool

set_option maxRecDepth 4000 in
/-- C5 counterexample: the balancer has no InvalidInput check at all.  On
poolTwo, which satisfies the spec precondition (even length, at least 2),
it completes with no teams at all (the None, None, inf placeholder); on
poolFive, which violates the precondition (odd length), it does not fail
and completes with a result. -/
theorem balancer_no_invalid_input_check :
    balance_teams poolTwo = none ∧ (balance_teams poolFive).isSome = true := by
  decide

/-- C5 amended: balance_teams raises no error on any input; it returns the
empty placeholder result exactly when the input has fewer than 5 entries,
and otherwise always completes with a result, regardless of parity of the
input length. -/
theorem balance_teams_none_iff {α : Type} [DecidableEq α] (pool : List (α × Int)) :
    balance_teams pool = none ↔ pool.length < 5 := by
  rw [balance_teams_eq_spec, Option.map_eq_none', specFirstMinimal_eq_none]
  have h := combinations_ne_nil_iff 5 pool
  constructor
  · intro hc
    by_contra hlen
    exact (h.mpr (by omega)) hc
  · intro hlen
    by_contra hc
    have := h.mp hc
    omega

set_option maxRecDepth 40000 in
/-- C7: on the ten concrete entries A..J with skills 100..10, the returned
difference is 10, which is a lower bound of, and is attained by, the
absolute difference of every 5-element subset of the input against its
complement: it equals the true minimum. -/
theorem balance_diff_is_true_minimum :
    (balance_teams poolTen).map BTResult.diff = some 10 ∧
    (∀ c ∈ combinations 5 poolTen, 10 ≤ candDiff poolTen c) ∧
    (∃ c ∈ combinations 5 poolTen, candDiff poolTen c = 10) := by
  decide

set_option maxRecDepth 40000 in
/-- C8: on any 10 pairwise-distinct entries balance_teams returns two
disjoint teams of 5 entries each that together permute the input, with the
reported difference the absolute difference of the two sums; and the
distinctness is essential: on dupPool, which repeats one pair, the two
returned teams cover only 9 of the 10 entries. -/
theorem balance_partition_of_nodup :
    (∀ pool : List (String × Int), pool.Nodup → pool.length = 10 →
      ∃ r, balance_teams pool = some r ∧ r.team1.length = 5 ∧ r.team2.length = 5 ∧
        (∀ x ∈ r.team1, x ∉ r.team2) ∧ (r.team1 ++ r.team2).Perm pool ∧
        r.diff = |r.sum1 - r.sum2|) ∧
    (balance_teams dupPool).map (fun r => r.team1.length + r.team2.length) = some 9 := by
  constructor
  · intro pool hnd hlen
    have hne : combinations 5 pool ≠ [] :=
      (combinations_ne_nil_iff 5 pool).mpr (by omega)
    obtain ⟨c, hc⟩ : ∃ c, specFirstMinimal pool (combinations 5 pool) = some c := by
      cases hs : specFirstMinimal pool (combinations 5 pool) with
      | none => exact absurd ((specFirstMinimal_eq_none pool _).mp hs) hne
      | some c => exact ⟨c, rfl⟩
    have hmem := specFirstMinimal_mem pool _ c hc
    obtain ⟨hsub, hlen5⟩ := mem_combinations_sublist 5 pool c hmem
    refine ⟨mkRes pool c, ?_, hlen5, ?_, ?_, ?_, rfl⟩
    · rw [balance_teams_eq_spec, hc]
      rfl
    · show (pool.filter (notMemB c)).length = 5
      rw [sublist_filter_length hsub hnd, hlen, hlen5]
    · intro x hx hx2
      have hx3 := List.mem_filter.mp hx2
      have hx4 : x ∉ c := by simpa [notMemB] using hx3.2
      exact hx4 hx
    · exact sublist_append_filter_perm hsub hnd
  · decide

/-- Witness for C8 at the concrete distinct 10-entry pool. -/
theorem balance_partition_of_nodup_witness :
    ∃ r, balance_teams poolTen = some r ∧ r.team1.length = 5 ∧ r.team2.length = 5 ∧
      (∀ x ∈ r.team1, x ∉ r.team2) ∧ (r.team1 ++ r.team2).Perm poolTen ∧
      r.diff = |r.sum1 - r.sum2| :=
  balance_partition_of_nodup.1 poolTen (by decide) (by decide)

theorem keys_dictInsert (d : List (String × Int)) (k : String) (v : Int) :
    (dictInsert d k v).map Prod.fst =
      if k ∈ d.map Prod.fst then d.map Prod.fst else d.map Prod.fst ++ [k] := by
  unfold dictInsert
  split
  · rw [List.map_map]
    refine List.map_congr_left ?_
    intro kv _
    by_cases hk : kv.1 = k
    · simp [Function.comp, hk]
    · simp [Function.comp, hk]
  · simp

theorem build_keys_mem (hist : String → Option Int) (names : List String) :
    ∀ (d : List (String × Int)) (k : String),
      (k ∈ (names.foldl (fun d n => dictInsert d n (lookupSkill hist n)) d).map Prod.fst ↔
        k ∈ d.map Prod.fst ∨ k ∈ names) := by
  induction names with
  | nil => intro d k; simp
  | cons n ns ih =>
    intro d k
    rw [List.foldl_cons, ih]
    rw [keys_dictInsert]
    by_cases h : n ∈ d.map Prod.fst
    · rw [if_pos h]
      constructor
      · rintro (hk | hk)
        · exact Or.inl hk
        · exact Or.inr (List.mem_cons_of_mem _ hk)
      · rintro (hk | hk)
        · exact Or.inl hk
        · rcases List.mem_cons.mp hk with rfl | hk
          · exact Or.inl h
          · exact Or.inr hk
    · rw [if_neg h]
      simp only [List.mem_append, List.mem_singleton, List.mem_cons]
      tauto

theorem build_keys_nodup (hist : String → Option Int) (names : List String) :
    ∀ d : List (String × Int), (d.map Prod.fst).Nodup →
      ((names.foldl (fun d n => dictInsert d n (lookupSkill hist n)) d).map Prod.fst).Nodup := by
  induction names with
  | nil => intro d h; exact h
  | cons n ns ih =>
    intro d h
    rw [List.foldl_cons]
    apply ih
    rw [keys_dictInsert]
    split
    · exact h
    · next hn =>
      refine List.Nodup.append h (List.nodup_singleton n) ?_
      intro x hx hxn
      rw [List.mem_singleton] at hxn
      exact hn (hxn ▸ hx)

theorem build_keys_eq (hist : String → Option Int) :
    ∀ (names : List String) (d : List (String × Int)), names.Nodup →
      (∀ n ∈ names, n ∉ d.map Prod.fst) →
      ((names.foldl (fun d n => dictInsert d n (lookupSkill hist n)) d).map Prod.fst) =
        d.map Prod.fst ++ names := by
  intro names
  induction names with
  | nil => intro d _ _; simp
  | cons n ns ih =>
    intro d hnd hfresh
    rcases List.nodup_cons.mp hnd with ⟨hn, hnd2⟩
    have hfn : n ∉ d.map Prod.fst := hfresh n (List.mem_cons_self n ns)
    have hkeys : (dictInsert d n (lookupSkill hist n)).map Prod.fst = d.map Prod.fst ++ [n] := by
      rw [keys_dictInsert, if_neg hfn]
    have hfresh2 : ∀ m ∈ ns, m ∉ (dictInsert d n (lookupSkill hist n)).map Prod.fst := by
      intro m hm
      rw [hkeys]
      simp only [List.mem_append, List.mem_singleton]
      rintro (hmd | rfl)
      · exact hfresh m (List.mem_cons_of_mem _ hm) hmd
      · exact hn hm
    rw [List.foldl_cons, ih _ hnd2 hfresh2, hkeys, List.append_assoc]
    rfl

/-- C9: balance_teams_with_history keys its balancing input by display
name: the input has pairwise distinct names, its names are exactly the pool
names, distinct pool names are kept in pool order, and when a 10-member
pool repeats a display name the balancing input shrinks, so the returned
teams cover fewer than the 10 members. -/
theorem history_balancing_keys_by_name (hist : String → Option Int) (names : List String) :
    ((build_player_stats hist names).map Prod.fst).Nodup ∧
    (∀ k, k ∈ (build_player_stats hist names).map Prod.fst ↔ k ∈ names) ∧
    (names.Nodup → (build_player_stats hist names).map Prod.fst = names) ∧
    (names.length = 10 → ¬ names.Nodup →
      ∀ r, (balance_teams_with_history hist names).1 = some r →
        r.team1.length + r.team2.length < 10) := by
  refine ⟨?_, ?_, ?_, ?_⟩
  · exact build_keys_nodup hist names [] (by simp)
  · intro k
    have h := build_keys_mem hist names [] k
    simpa [build_player_stats] using h
  · intro hnd
    have h := build_keys_eq hist names [] hnd (by simp)
    simpa [build_player_stats] using h
  · intro hlen hnd r hr
    have hknd : ((build_player_stats hist names).map Prod.fst).Nodup :=
      build_keys_nodup hist names [] (by simp)
    have hpnd : (build_player_stats hist names).Nodup := hknd.of_map
    have hsubset : ∀ k ∈ (build_player_stats hist names).map Prod.fst, k ∈ names.dedup := by
      intro k hk
      refine List.mem_dedup.mpr ?_
      have h := build_keys_mem hist names [] k
      simpa [build_player_stats] using h.mp (by simpa [build_player_stats] using hk)
    have hsp : ((build_player_stats hist names).map Prod.fst).Subperm names.dedup :=
      List.Nodup.subperm hknd hsubset
    have hdlt : names.dedup.length < names.length := by
      have hsl : names.dedup.Sublist names := List.dedup_sublist names
      rcases lt_or_eq_of_le hsl.length_le with h | h
      · exact h
      · exact absurd (List.dedup_eq_self.mp (hsl.eq_of_length h)) hnd
    have hplen : (build_player_stats hist names).length < 10 := by
      have h1 : ((build_player_stats hist names).map Prod.fst).length =
          (build_player_stats hist names).length := List.length_map _ _
      have h2 := hsp.length_le
      omega
    have hb : balance_teams (build_player_stats hist names) = some r := hr
    rw [balance_teams_eq_spec] at hb
    cases hs : specFirstMinimal (build_player_stats hist names)
        (combinations 5 (build_player_stats hist names)) with
    | none => rw [hs] at hb; cases hb
    | some c =>
      rw [hs] at hb
      simp only [Option.map_some'] at hb
      have hmem := specFirstMinimal_mem _ _ c hs
      obtain ⟨hsubl, hlen5⟩ := mem_combinations_sublist 5 _ c hmem
      have h5 : 5 ≤ (build_player_stats hist names).length := by
        have := hsubl.length_le
        omega
      have ht2 : ((mkRes (build_player_stats hist names) c).team2).length =
          (build_player_stats hist names).length - 5 := by
        show ((build_player_stats hist names).filter (notMemB c)).length = _
        rw [sublist_filter_length hsubl hpnd, hlen5]
      have ht1 : ((mkRes (build_player_stats hist names) c).team1).length = 5 := hlen5
      obtain rfl := Option.some.inj hb
      omega

set_option maxRecDepth 40000 in
/-- Witness for C9 on a concrete 10-name pool with a duplicate name. -/
theorem history_balancing_keys_witness :
    r0.team1.length + r0.team2.length < 10 :=
  (history_balancing_keys_by_name histNone names10).2.2.2 (by decide) (by decide) r0 (by decide)

/-- C10: the skill a player contributes to history-based balancing is the
default 75 both when no historical average exists and when the historical
average is exactly 0, because the fetched value is tested for truthiness;
any nonzero fetched average is used as is, and the single-name stats dict
pairs the name with exactly this skill. -/
theorem skill_default_on_zero_or_missing (hist : String → Option Int) (name : String) :
    (hist name = none → lookupSkill hist name = 75) ∧
    (hist name = some 0 → lookupSkill hist name = 75) ∧
    (∀ v, hist name = some v → v ≠ 0 → lookupSkill hist name = v) ∧
    build_player_stats hist [name] = [(name, lookupSkill hist name)] := by
  refine ⟨?_, ?_, ?_, ?_⟩
  · intro h; simp [lookupSkill, h]
  · intro h; simp [lookupSkill, h]
  · intro v h hv; simp [lookupSkill, h, hv]
  · simp [build_player_stats, dictInsert]

/-- Witness for C10 at three concrete histories. -/
theorem skill_default_witness :
    lookupSkill histZero "p" = 75 ∧ lookupSkill histNone "p" = 75 ∧
    lookupSkill histEightyEight "p" = 88 :=
  ⟨(skill_default_on_zero_or_missing histZero "p").2.1 rfl,
   (skill_default_on_zero_or_missing histNone "p").1 rfl,
   (skill_default_on_zero_or_missing histEightyEight "p").2.2.1 88 rfl (by decide)⟩

theorem set_cooldown_eq (now pid dur : Nat) (st : BotState) :
    set_cooldown now pid dur st = (false, st) := by
  have h : onConflictTargetOk cooldowns_unique_targets ["player_id"] = false := by decide
  simp [set_cooldown, h]

theorem check_cooldown_of_nil (now pid : Nat) (st : BotState) (h : st.cooldowns = []) :
    check_cooldown now pid st = none := by
  simp [check_cooldown, h]

theorem leave_game_not_mem (now pid : Nat) (st : BotState) (h : pid ∉ st.members) :
    leave_game now pid st = (.notInPool, st) := by
  simp [leave_game, remove_player_from_match, h]

theorem leave_game_mem (now pid : Nat) (st : BotState) (h : pid ∈ st.members) :
    leave_game now pid st =
      (.left ((st.members.filter (fun q => decide (q ≠ pid))).length),
       { st with members := st.members.filter (fun q => decide (q ≠ pid)) }) := by
  have h2 : onConflictTargetOk cooldowns_unique_targets ["player_id"] = false := by decide
  simp [leave_game, remove_player_from_match, set_cooldown, h, h2, get_match_player_count]

theorem inv_step (st : BotState) (op : Op) (h : Inv st) : Inv (step st op) := by
  obtain ⟨hnd, hlen, hcd⟩ := h
  cases op with
  | join now pid =>
    show Inv (join_game now pid st).2
    have hcc := check_cooldown_of_nil now pid st hcd
    by_cases hmem : pid ∈ get_match_players st
    · simp only [join_game, hcc, if_pos hmem]
      exact ⟨hnd, hlen, hcd⟩
    · by_cases hcap : 10 ≤ get_match_player_count st
      · simp only [join_game, hcc, if_neg hmem, if_pos hcap]
        exact ⟨hnd, hlen, hcd⟩
      · have hmem2 : pid ∉ st.members := hmem
        have hcap2 : st.members.length < 10 := by
          simp only [get_match_player_count] at hcap
          omega
        have hnd2 : (add_player_to_match pid st.members).Nodup := by
          unfold add_player_to_match
          rw [if_neg hmem2, List.nodup_append]
          refine ⟨hnd, List.nodup_singleton pid, ?_⟩
          intro x hx hxp
          rw [List.mem_singleton] at hxp
          exact hmem2 (hxp ▸ hx)
        have hlen2 : (add_player_to_match pid st.members).length ≤ 10 := by
          unfold add_player_to_match
          rw [if_neg hmem2]
          simp only [List.length_append, List.length_singleton]
          omega
        by_cases hfull : get_match_player_count st + 1 = 10
        · simp only [join_game, hcc, if_neg hmem, if_neg hcap, if_pos hfull]
          exact ⟨hnd2, hlen2, hcd⟩
        · simp only [join_game, hcc, if_neg hmem, if_neg hcap, if_neg hfull]
          exact ⟨hnd2, hlen2, hcd⟩
  | leave now pid =>
    show Inv (leave_game now pid st).2
    by_cases hmem : pid ∈ st.members
    · rw [leave_game_mem now pid st hmem]
      refine ⟨hnd.filter _, ?_, hcd⟩
      exact le_trans (List.length_filter_le _ _) hlen
    · rw [leave_game_not_mem now pid st hmem]
      exact ⟨hnd, hlen, hcd⟩

theorem inv_foldl : ∀ (ops : List Op) (st : BotState), Inv st → Inv (ops.foldl step st) := by
  intro ops
  induction ops with
  | nil => intro st h; exact h
  | cons op ops ih => intro st h; exact ih _ (inv_step st op h)

theorem inv_run (ops : List Op) : Inv (run ops) :=
  inv_foldl ops initState ⟨List.nodup_nil, by simp [initState], rfl⟩

/-- C1: over any sequence of completed operations on one open session the
membership stays at most 10 and duplicate-free; a join by a non-member at
count 10 fails poolFull with the state unchanged, and a join by a member
fails alreadyJoined with the state unchanged. -/
theorem pool_capacity_and_unique_membership (ops : List Op) :
    (run ops).members.length ≤ 10 ∧ (run ops).members.Nodup ∧
    (∀ now pid, pid ∉ (run ops).members → (run ops).members.length = 10 →
      join_game now pid (run ops) = (.poolFull, run ops)) ∧
    (∀ now pid, pid ∈ (run ops).members →
      join_game now pid (run ops) = (.alreadyJoined, run ops)) := by
  obtain ⟨hnd, hlen, hcd⟩ := inv_run ops
  refine ⟨hlen, hnd, ?_, ?_⟩
  · intro now pid hpid hfull
    have hcc := check_cooldown_of_nil now pid (run ops) hcd
    have hcap : 10 ≤ (run ops).members.length := by omega
    simp only [join_game, hcc, get_match_players, get_match_player_count,
      if_neg hpid, if_pos hcap]
  · intro now pid hpid
    have hcc := check_cooldown_of_nil now pid (run ops) hcd
    simp only [join_game, hcc, get_match_players, if_pos hpid]

set_option maxRecDepth 8000 in
/-- Witness for C1 after ten distinct joins. -/
theorem pool_capacity_witness :
    join_game 0 11 (run ops10) = (.poolFull, run ops10) ∧
    join_game 0 1 (run ops10) = (.alreadyJoined, run ops10) :=
  ⟨(pool_capacity_and_unique_membership ops10).2.2.1 0 11 (by decide) (by decide),
   (pool_capacity_and_unique_membership ops10).2.2.2 0 1 (by decide)⟩

set_option maxRecDepth 8000 in
/-- C2 counterexample: there is no one-shot balancing latch in the code:
filling the pool to 10 invokes balancing once, and after a leave and a
refill to 10 the balancer is invoked a second time for the same session. -/
theorem balancing_retriggers_on_refill :
    (run ops10).balanceCalls = 1 ∧ (run opsRefill).balanceCalls = 2 := by
  decide

/-- C2 amended: a join invokes balancing exactly when it brings the count
to 10 (no cooldown hit, joiner not already a member, exactly 9 members);
any other join leaves the balancing count unchanged, and a leave never
changes it, so refilling to 10 re-invokes balancing each time. -/
theorem balancing_fires_per_capacity_join (st : BotState) (now pid : Nat) :
    ((join_game now pid st).1 = .joined 10 ↔
      check_cooldown now pid st = none ∧ pid ∉ st.members ∧ st.members.length = 9) ∧
    ((join_game now pid st).1 = .joined 10 →
      (join_game now pid st).2.balanceCalls = st.balanceCalls + 1) ∧
    ((join_game now pid st).1 ≠ .joined 10 →
      (join_game now pid st).2.balanceCalls = st.balanceCalls) ∧
    (leave_game now pid st).2.balanceCalls = st.balanceCalls := by
  have hleave : (leave_game now pid st).2.balanceCalls = st.balanceCalls := by
    by_cases hmem : pid ∈ st.members
    · rw [leave_game_mem now pid st hmem]
    · rw [leave_game_not_mem now pid st hmem]
  cases hcc : check_cooldown now pid st with
  | some c =>
    refine ⟨?_, ?_, ?_, hleave⟩
    · simp [join_game, hcc]
    · intro hj
      simp [join_game, hcc] at hj
    · intro _
      simp [join_game, hcc]
  | none =>
    by_cases hmem : pid ∈ st.members
    · refine ⟨?_, ?_, ?_, hleave⟩
      · simp [join_game, hcc, get_match_players, hmem]
      · intro hj
        simp [join_game, hcc, get_match_players, hmem] at hj
      · intro _
        simp [join_game, hcc, get_match_players, hmem]
    · by_cases hcap : 10 ≤ st.members.length
      · refine ⟨?_, ?_, ?_, hleave⟩
        · simp [join_game, hcc, get_match_players, get_match_player_count, hmem, hcap]
          omega
        · intro hj
          simp [join_game, hcc, get_match_players, get_match_player_count, hmem, hcap] at hj
        · intro _
          simp [join_game, hcc, get_match_players, get_match_player_count, hmem, hcap]
      · by_cases hfull : st.members.length + 1 = 10
        · refine ⟨?_, ?_, ?_, hleave⟩
          · simp [join_game, hcc, get_match_players, get_match_player_count, hmem, hcap, hfull]
            omega
          · intro _
            simp [join_game, hcc, get_match_players, get_match_player_count, hmem, hcap, hfull]
          · intro hne
            exfalso
            apply hne
            simp [join_game, hcc, get_match_players, get_match_player_count, hmem, hcap, hfull]
        · refine ⟨?_, ?_, ?_, hleave⟩
          · simp [join_game, hcc, get_match_players, get_match_player_count, hmem, hcap, hfull]
            omega
          · intro hj
            simp [join_game, hcc, get_match_players, get_match_player_count,
              hmem, hcap, hfull] at hj
          · intro _
            simp [join_game, hcc, get_match_players, get_match_player_count, hmem, hcap, hfull]

set_option maxRecDepth 8000 in
/-- Witness for the amended C2 at a nine-member session. -/
theorem balancing_fires_witness :
    (join_game 0 10 (run ops9)).2.balanceCalls = (run ops9).balanceCalls + 1 ∧
    (join_game 0 1 (run ops9)).2.balanceCalls = (run ops9).balanceCalls ∧
    (leave_game 0 1 (run ops9)).2.balanceCalls = (run ops9).balanceCalls :=
  ⟨(balancing_fires_per_capacity_join (run ops9) 0 10).2.1 (by decide),
   (balancing_fires_per_capacity_join (run ops9) 0 1).2.2.1 (by decide),
   (balancing_fires_per_capacity_join (run ops9) 0 1).2.2.2⟩

set_option maxRecDepth 8000 in
/-- C3 (code bug evidence): the cooldowns table carries no unique
constraint on player_id, so the ON CONFLICT (player_id) upsert of
set_cooldown is rejected by the database and swallowed by the except
branch: after a successful leave at time 1000 no cooldown row exists, and
a rejoin one second later succeeds instead of failing with OnCooldown. -/
theorem leave_cooldown_never_installed :
    onConflictTargetOk cooldowns_unique_targets ["player_id"] = false ∧
    (set_cooldown 1000 1 60 initState).1 = false ∧
    (run opsLeaveScenario).cooldowns = [] ∧
    (join_game 1001 1 (run opsLeaveScenario)).1 = .joined 1 := by
  decide

/-- C6: a leave by a non-member returns notInPool with the state unchanged
(so a second consecutive leave returns notInPool); a leave by a member
deletes exactly that membership, reports the new count, and leaves the
cooldowns table unchanged because the attempted 60-second cooldown
installation fails against the schema. -/
theorem leave_semantics (ops : List Op) (now pid : Nat) :
    (pid ∉ (run ops).members → leave_game now pid (run ops) = (.notInPool, run ops)) ∧
    (pid ∈ (run ops).members →
      (leave_game now pid (run ops)).1 = .left ((run ops).members.length - 1) ∧
      (leave_game now pid (run ops)).2.members =
        (run ops).members.filter (fun q => decide (q ≠ pid)) ∧
      (leave_game now pid (run ops)).2.cooldowns = (run ops).cooldowns ∧
      (leave_game now pid (run ops)).1 ≠ .notInPool ∧
      (leave_game now pid ((leave_game now pid (run ops)).2)).1 = .notInPool) := by
  obtain ⟨hnd, hlen, hcd⟩ := inv_run ops
  constructor
  · intro hpid
    exact leave_game_not_mem now pid (run ops) hpid
  · intro hmem
    have hlm := leave_game_mem now pid (run ops) hmem
    have hcongr : ∀ x ∈ (run ops).members,
        (decide (x ≠ pid)) = notMemB [pid] x := by
      intro x hx
      simp [notMemB, decide_eq_decide]
    have hflen : ((run ops).members.filter (fun q => decide (q ≠ pid))).length =
        (run ops).members.length - 1 := by
      rw [List.filter_congr hcongr,
        sublist_filter_length (List.singleton_sublist.mpr hmem) hnd]
      rfl
    have hst2 : (leave_game now pid (run ops)).2.members =
        (run ops).members.filter (fun q => decide (q ≠ pid)) := by
      rw [hlm]
    have hnotin : pid ∉ (run ops).members.filter (fun q => decide (q ≠ pid)) := by
      intro hin
      have h2 := List.mem_filter.mp hin
      simp at h2
    refine ⟨?_, hst2, ?_, ?_, ?_⟩
    · rw [hlm, hflen]
    · rw [hlm]
    · rw [hlm]
      simp
    · have h3 := leave_game_not_mem now pid (leave_game now pid (run ops)).2
        (by rw [hst2]; exact hnotin)
      rw [h3]

set_option maxRecDepth 8000 in
/-- Witness for C6 on a two-member session. -/
theorem leave_semantics_witness :
    leave_game 5 3 (run ops2) = (.notInPool, run ops2) ∧
    (leave_game 5 1 (run ops2)).1 = .left ((run ops2).members.length - 1) ∧
    (leave_game 5 1 (run ops2)).2.cooldowns = (run ops2).cooldowns ∧
    (leave_game 5 1 ((leave_game 5 1 (run ops2)).2)).1 = .notInPool :=
  ⟨(leave_semantics ops2 5 3).1 (by decide),
   ((leave_semantics ops2 5 1).2 (by decide)).1,
   ((leave_semantics ops2 5 1).2 (by decide)).2.2.1,
   ((leave_semantics ops2 5 1).2 (by decide)).2.2.2.2⟩

end CsBot
